import Mathlib

/-!
A verification development for the purego foreign-function-call engine.

The definitions below are a shallow embedding of the argument-marshaling
code of `func.go`, `struct_amd64.go` and `dl_darwin.go`:

* Go `uintptr`/`uint64` arithmetic is `Nat` with explicit truncation
  modulo `2^64`; the bit pattern of a signed field is kept as a `Nat`
  (its two's-complement representation), so `uint64(f.Int() & 0xFF)`
  becomes masking the stored pattern.
* The mutable call image of `RegisterFunc` (the `sysargs` integer
  register slots, the `floats` register slots, and the stack overflow
  buffer, each written at a running counter) is a `CallImage` of three
  lists: writing at the counter and bumping it is appending, and rolling
  counters back is restoring the lists.
* The closures `addInt`, `addFloat`, `addStack` of `func.go` become the
  functions of the same names.
-/

namespace Purego

/-- Truncation to 64 bits: Go's `uint64`/`uintptr` conversions. -/
def u64 (x : Nat) : Nat := x % 2 ^ 64

/-- Go's `<<` on `uint64`: shift left, truncated to 64 bits. -/
def shl64 (x s : Nat) : Nat := (x <<< s) % 2 ^ 64

/-- `uintptr(int64)` for a narrow signed value: sign-extend the `w`-bit
pattern `v` to 64 bits. -/
def sext (w v : Nat) : Nat :=
  if v % 2 ^ w < 2 ^ (w - 1) then v % 2 ^ w else v % 2 ^ w + (2 ^ 64 - 2 ^ w)

/-- The two build targets the struct claims concern (`runtime.GOARCH`). -/
inductive Arch
  | amd64
  | arm64
deriving DecidableEq, Repr

/-- `numOfIntegerRegisters` of func.go: 8 on arm64, 6 on amd64. -/
def numOfIntegerRegisters : Arch → Nat
  | .arm64 => 8
  | .amd64 => 6

/-- `numOfFloats`: the float register file size used by func.go. -/
def numOfFloats : Nat := 8

/-- `maxArgs`: the size of the `sysargs` array (`sysargs[0]` … `sysargs[14]`
are passed to `syscall15`). -/
def maxArgs : Nat := 15

/-- The per-call register/stack image built by `RegisterFunc`'s closure:
the committed integer register slots (`sysargs[0..numInts)`), the
committed float register slots (`floats[0..numFloats)`), and the stack
overflow buffer (`stack[0..numStack)`).  A slot list's length is the
corresponding counter. -/
structure CallImage where
  ints : List Nat
  floats : List Nat
  stack : List Nat
deriving DecidableEq, Repr

/-- The image at the start of a call: all counters zero. -/
def CallImage.empty : CallImage := ⟨[], [], []⟩

/-- `addStack` of func.go (non-Windows-amd64 path): `stack[numStack] = x; numStack++`. -/
def addStack (img : CallImage) (x : Nat) : CallImage :=
  { img with stack := img.stack ++ [x] }

/-- `addInt` of func.go: spill to the stack once the integer registers are
exhausted, else `sysargs[numInts] = x; numInts++`. -/
def addInt (arch : Arch) (img : CallImage) (x : Nat) : CallImage :=
  if numOfIntegerRegisters arch ≤ img.ints.length then addStack img x
  else { img with ints := img.ints ++ [x] }

/-- `addFloat` of func.go: `floats[numFloats] = x; numFloats++` while room
remains, else spill to the stack. -/
def addFloat (img : CallImage) (x : Nat) : CallImage :=
  if img.floats.length < numOfFloats then { img with floats := img.floats ++ [x] }
  else addStack img x

/-!  Scalar arguments and the marshaling loop of `RegisterFunc`
(func.go, the `for _, v := range args` switch).  A string argument is
represented by the pointer `strings.CString` returned for it, a func
argument by its `NewCallback` trampoline address: both addresses are
opaque to the classifier. -/

/-- One scalar argument as the marshaling switch sees it. -/
inductive ScalarArg
  | strArg (p : Nat)
  | uintArg (v : Nat)
  | intArg (v : Int)
  | ptrArg (p : Nat)
  | funcArg (cb : Nat)
  | boolArg (b : Bool)
  | f32Arg (bits : Nat)
  | f64Arg (bits : Nat)
deriving DecidableEq, Repr

/-- The `uintptr` value the switch hands to `addInt`/`addFloat` for one
scalar argument. -/
def marshalScalar : ScalarArg → Nat
  | .strArg p => u64 p
  | .uintArg v => u64 v
  | .intArg v => (v % (2 ^ 64 : Int)).toNat
  | .ptrArg p => u64 p
  | .funcArg cb => u64 cb
  | .boolArg b => if b then 1 else 0
  | .f32Arg bits => bits % 2 ^ 32
  | .f64Arg bits => u64 bits

/-- Which arguments the switch routes through `addFloat` (the
`reflect.Float32, reflect.Float64` cases); all others go through `addInt`. -/
def isFloatKind : ScalarArg → Bool
  | .f32Arg _ => true
  | .f64Arg _ => true
  | _ => false

/-- The non-Windows-amd64 marshaling loop over scalar arguments. -/
def marshalArgs (arch : Arch) (img : CallImage) : List ScalarArg → CallImage
  | [] => img
  | a :: rest =>
    if isFloatKind a then marshalArgs arch (addFloat img (marshalScalar a)) rest
    else marshalArgs arch (addInt arch img (marshalScalar a)) rest

/-- The marshaled values of the integer-kind arguments, in order. -/
def intVals (args : List ScalarArg) : List Nat :=
  (args.filter fun a => !isFloatKind a).map marshalScalar

/-- The marshaled values of the float-kind arguments, in order. -/
def floatVals (args : List ScalarArg) : List Nat :=
  (args.filter isFloatKind).map marshalScalar

/-- The values that overflow to the stack when `ci` integer registers and
`cf` float registers remain, in original argument order. -/
def overflowVals (ci cf : Nat) : List ScalarArg → List Nat
  | [] => []
  | a :: rest =>
    if isFloatKind a then
      match cf with
      | 0 => marshalScalar a :: overflowVals ci 0 rest
      | cf' + 1 => overflowVals ci cf' rest
    else
      match ci with
      | 0 => marshalScalar a :: overflowVals 0 cf rest
      | ci' + 1 => overflowVals ci' cf rest

theorem marshalArgs_append (arch : Arch) (args : List ScalarArg) (img : CallImage)
    (hI : img.ints.length ≤ numOfIntegerRegisters arch)
    (hF : img.floats.length ≤ numOfFloats) :
    marshalArgs arch img args =
      ⟨img.ints ++ (intVals args).take (numOfIntegerRegisters arch - img.ints.length),
       img.floats ++ (floatVals args).take (numOfFloats - img.floats.length),
       img.stack ++ overflowVals (numOfIntegerRegisters arch - img.ints.length)
         (numOfFloats - img.floats.length) args⟩ := by
  induction args generalizing img with
  | nil => simp [marshalArgs, intVals, floatVals, overflowVals]
  | cons a rest ih =>
    by_cases hfk : isFloatKind a
    · simp only [marshalArgs, hfk, if_pos]
      by_cases hlt : img.floats.length < numOfFloats
      · rw [ih (addFloat img (marshalScalar a))
          (by simp [addFloat, hlt, hI]) (by simp [addFloat, hlt]; omega)]
        simp only [addFloat, hlt, if_pos]
        have h1 : numOfFloats - img.floats.length =
            (numOfFloats - (img.floats.length + 1)) + 1 := by omega
        simp only [intVals, floatVals, overflowVals, hfk, List.filter_cons,
          Bool.not_true, List.map_cons, CallImage.mk.injEq,
          List.length_append, List.length_cons, List.length_nil]
        refine ⟨by simp, ?_, ?_⟩
        · rw [h1]
          simp [List.take_succ_cons, List.append_assoc]
        · rw [h1]
          simp
      · have hfull : img.floats.length = numOfFloats := by omega
        rw [ih (addFloat img (marshalScalar a))
          (by simp [addFloat, hlt, addStack, hI]) (by simp [addFloat, hlt, addStack]; omega)]
        simp only [addFloat, hlt, if_neg, addStack, not_false_iff]
        simp only [intVals, floatVals, overflowVals, hfk, List.filter_cons,
          Bool.not_true, List.map_cons, hfull, Nat.sub_self, CallImage.mk.injEq]
        refine ⟨by simp, by simp, ?_⟩
        simp [List.append_assoc]
    · simp only [marshalArgs, hfk, if_neg, Bool.false_eq_true, not_false_iff, if_false]
      by_cases hlt : img.ints.length < numOfIntegerRegisters arch
      · have hnle : ¬ numOfIntegerRegisters arch ≤ img.ints.length := by omega
        rw [ih (addInt arch img (marshalScalar a))
          (by simp [addInt, hnle]; omega) (by simp [addInt, hnle, hF])]
        simp only [addInt, hnle, if_neg, not_false_iff]
        have h1 : numOfIntegerRegisters arch - img.ints.length =
            (numOfIntegerRegisters arch - (img.ints.length + 1)) + 1 := by omega
        simp only [intVals, floatVals, overflowVals, hfk, List.filter_cons,
          Bool.not_false, List.map_cons, CallImage.mk.injEq,
          List.length_append, List.length_cons, List.length_nil]
        refine ⟨?_, by simp, ?_⟩
        · rw [h1]
          simp [List.take_succ_cons, List.append_assoc]
        · rw [h1]
          simp
      · have hfull : img.ints.length = numOfIntegerRegisters arch := by omega
        have hle : numOfIntegerRegisters arch ≤ img.ints.length := by omega
        rw [ih (addInt arch img (marshalScalar a))
          (by simp [addInt, hle, addStack, hI]) (by simp [addInt, hle, addStack, hF])]
        simp only [addInt, hle, if_pos, addStack]
        simp only [intVals, floatVals, overflowVals, hfk, List.filter_cons,
          Bool.not_false, List.map_cons, hfull, Nat.sub_self, CallImage.mk.injEq]
        refine ⟨by simp, by simp, ?_⟩
        simp [List.append_assoc]

theorem overflowVals_eq_nil (args : List ScalarArg) (ci cf : Nat)
    (hi : (args.filter fun a => !isFloatKind a).length ≤ ci)
    (hf : (args.filter isFloatKind).length ≤ cf) :
    overflowVals ci cf args = [] := by
  induction args generalizing ci cf with
  | nil => rfl
  | cons a rest ih =>
    by_cases hfk : isFloatKind a
    · simp [List.filter_cons, hfk] at hi hf
      obtain ⟨cf', rfl⟩ : ∃ cf', cf = cf' + 1 := ⟨cf - 1, by omega⟩
      simp only [overflowVals, hfk, if_pos]
      exact ih ci cf' hi (by omega)
    · simp [List.filter_cons, hfk] at hi hf
      obtain ⟨ci', rfl⟩ : ∃ ci', ci = ci' + 1 := ⟨ci - 1, by omega⟩
      simp only [overflowVals, hfk, Bool.false_eq_true, if_neg, not_false_iff]
      exact ih ci' cf (by omega) hf

theorem overflowVals_length (args : List ScalarArg) (ci cf : Nat) :
    (overflowVals ci cf args).length =
      ((args.filter fun a => !isFloatKind a).length - ci)
        + ((args.filter isFloatKind).length - cf) := by
  induction args generalizing ci cf with
  | nil => simp [overflowVals]
  | cons a rest ih =>
    by_cases hfk : isFloatKind a
    · simp only [overflowVals, hfk, if_pos, List.filter_cons, Bool.not_true]
      cases cf with
      | zero => simp [ih, hfk]; omega
      | succ cf' => simp [ih, hfk]
    · simp only [overflowVals, hfk, Bool.false_eq_true, if_neg, not_false_iff,
        List.filter_cons, Bool.not_false]
      cases ci with
      | zero => simp [ih, hfk]; omega
      | succ ci' => simp [ih, hfk]

theorem overflowVals_sublist (args : List ScalarArg) (ci cf : Nat) :
    (overflowVals ci cf args).Sublist (args.map marshalScalar) := by
  induction args generalizing ci cf with
  | nil => simp [overflowVals]
  | cons a rest ih =>
    by_cases hfk : isFloatKind a
    · simp only [overflowVals, hfk, if_pos, List.map_cons]
      cases cf with
      | zero => exact (ih ci 0).cons₂ _
      | succ cf' => exact (ih ci cf').cons _
    · simp only [overflowVals, hfk, Bool.false_eq_true, if_neg, not_false_iff, List.map_cons]
      cases ci with
      | zero => exact (ih 0 cf).cons₂ _
      | succ ci' => exact (ih ci' cf).cons _

/-- C4.  When the integer-kind count fits in the integer register file and
the float-kind count fits in the float register file, the marshaling loop
fills `sysargs[0..N)` with exactly the marshaled integer-kind values,
`floats[0..M)` with exactly the marshaled float-kind values, and puts
nothing in the stack overflow buffer. -/
theorem marshal_scalars_within_capacity (arch : Arch) (args : List ScalarArg)
    (hN : (intVals args).length ≤ numOfIntegerRegisters arch)
    (hM : (floatVals args).length ≤ numOfFloats) :
    marshalArgs arch CallImage.empty args = ⟨intVals args, floatVals args, []⟩ := by
  rw [marshalArgs_append arch args CallImage.empty (by simp [CallImage.empty])
    (by simp [CallImage.empty])]
  simp only [CallImage.empty, List.length_nil, Nat.sub_zero, List.nil_append,
    CallImage.mk.injEq]
  refine ⟨List.take_of_length_le hN, List.take_of_length_le hM, ?_⟩
  exact overflowVals_eq_nil args _ _ (by simpa [intVals] using hN) (by simpa [floatVals] using hM)

/-- Witness for C4 at a concrete argument list on arm64. -/
theorem marshal_scalars_within_capacity_witness :
    marshalArgs .arm64 CallImage.empty
        [.intArg 3, .f32Arg 5, .strArg 7, .boolArg true, .f64Arg 9] =
      ⟨[3, 7, 1], [5, 9], []⟩ :=
  marshal_scalars_within_capacity .arm64
    [.intArg 3, .f32Arg 5, .strArg 7, .boolArg true, .f64Arg 9]
    (by decide) (by decide)

/-- One call of `addInt`, `addFloat` or `addStack` made by the
non-Windows-amd64 marshaling path. -/
inductive MarshalOp
  | opInt (x : Nat)
  | opFloat (x : Nat)
  | opStack (x : Nat)
deriving DecidableEq, Repr

def applyOp (arch : Arch) (img : CallImage) : MarshalOp → CallImage
  | .opInt x => addInt arch img x
  | .opFloat x => addFloat img x
  | .opStack x => addStack img x

def applyOps (arch : Arch) (img : CallImage) (ops : List MarshalOp) : CallImage :=
  ops.foldl (applyOp arch) img

theorem applyOps_register_bounds (arch : Arch) (ops : List MarshalOp) (img : CallImage)
    (hI : img.ints.length ≤ numOfIntegerRegisters arch)
    (hF : img.floats.length ≤ numOfFloats) :
    (applyOps arch img ops).ints.length ≤ numOfIntegerRegisters arch ∧
      (applyOps arch img ops).floats.length ≤ numOfFloats := by
  induction ops generalizing img with
  | nil => exact ⟨hI, hF⟩
  | cons op rest ih =>
    refine ih (applyOp arch img op) ?_ ?_ <;>
      rcases op with x | x | x <;>
        simp only [applyOp, addInt, addFloat, addStack] <;>
        first
          | (split <;> simp_all <;> omega)
          | simp_all

/-- C5.  Register slot counts never exceed the register-file sizes for any
sequence of `addInt`/`addFloat`/`addStack` operations; a scalar argument
list's overflow values are exactly the values offered after their register
class was exhausted, appended to the stack buffer in original
left-to-right order (a sublist of the marshaled argument sequence), and
their number is exactly the excess over register capacity. -/
theorem marshal_overflow_invariants (arch : Arch) (args : List ScalarArg) :
    (∀ ops : List MarshalOp,
        (applyOps arch CallImage.empty ops).ints.length ≤ numOfIntegerRegisters arch ∧
          (applyOps arch CallImage.empty ops).floats.length ≤ numOfFloats) ∧
      (marshalArgs arch CallImage.empty args).ints.length ≤ numOfIntegerRegisters arch ∧
      (marshalArgs arch CallImage.empty args).floats.length ≤ numOfFloats ∧
      (marshalArgs arch CallImage.empty args).stack =
        overflowVals (numOfIntegerRegisters arch) numOfFloats args ∧
      (marshalArgs arch CallImage.empty args).stack.length =
        ((intVals args).length - numOfIntegerRegisters arch)
          + ((floatVals args).length - numOfFloats) ∧
      (marshalArgs arch CallImage.empty args).stack.Sublist (args.map marshalScalar) := by
  have hemp : (CallImage.empty.ints.length ≤ numOfIntegerRegisters arch) ∧
      CallImage.empty.floats.length ≤ numOfFloats := by simp [CallImage.empty]
  have hm := marshalArgs_append arch args CallImage.empty hemp.1 hemp.2
  refine ⟨fun ops => applyOps_register_bounds arch ops CallImage.empty hemp.1 hemp.2,
    ?_, ?_, ?_, ?_, ?_⟩
  · rw [hm]; simp [CallImage.empty]
  · rw [hm]; simp [CallImage.empty]
  · rw [hm]; simp [CallImage.empty]
  · rw [hm]
    simp only [CallImage.empty, List.length_nil, Nat.sub_zero, List.nil_append]
    rw [overflowVals_length]
    simp [intVals, floatVals]
  · rw [hm]
    simp only [CallImage.empty, List.length_nil, Nat.sub_zero, List.nil_append]
    exact overflowVals_sublist args _ _

/-!  The Windows amd64 marshaling path (func.go, the `else` branch of the
closure setup): `addStack` writes `sysargs[numStack]` and increments the
single counter, and `addInt` and `addFloat` are the same function, so an
argument's position alone selects its physical slot. -/

/-- The Windows-amd64 call image: one positional slot array. -/
structure WinImage where
  sysargs : List Nat
deriving DecidableEq, Repr

/-- Windows-amd64 `addStack`: `sysargs[numStack] = x; numStack++`. -/
def winAddStack (img : WinImage) (x : Nat) : WinImage :=
  ⟨img.sysargs ++ [x]⟩

/-- Windows-amd64 `addInt = addStack`. -/
def winAddInt : WinImage → Nat → WinImage := winAddStack

/-- Windows-amd64 `addFloat = addStack`. -/
def winAddFloat : WinImage → Nat → WinImage := winAddStack

/-- The marshaling loop over scalar arguments on Windows amd64. -/
def marshalArgsWin (img : WinImage) : List ScalarArg → WinImage
  | [] => img
  | a :: rest =>
    if isFloatKind a then marshalArgsWin (winAddFloat img (marshalScalar a)) rest
    else marshalArgsWin (winAddInt img (marshalScalar a)) rest

theorem marshalArgsWin_append (img : WinImage) (args : List ScalarArg) :
    marshalArgsWin img args = ⟨img.sysargs ++ args.map marshalScalar⟩ := by
  induction args generalizing img with
  | nil => simp [marshalArgsWin]
  | cons a rest ih =>
    by_cases hfk : isFloatKind a <;>
      simp [marshalArgsWin, hfk, winAddFloat, winAddInt, winAddStack, ih]

/-- C8.  On the Windows-amd64 path position alone selects the slot: the
sequence of slots is exactly the marshaled values in argument order, so
the `i`-th argument (1-based) sits at `sysargs[i-1]`, regardless of the
mix of integer-kind and float-kind arguments before it. -/
theorem marshal_windows_positional (args : List ScalarArg) :
    (marshalArgsWin ⟨[]⟩ args).sysargs = args.map marshalScalar ∧
      (∀ i : Nat, (marshalArgsWin ⟨[]⟩ args).sysargs[i]? =
        (args[i]?).map marshalScalar) ∧
      winAddInt = winAddStack ∧ winAddFloat = winAddStack := by
  refine ⟨by simp [marshalArgsWin_append], fun i => ?_, rfl, rfl⟩
  simp [marshalArgsWin_append]

/-!  The string marshaler `cString` (dl_darwin.go) and the keep-alive
registration of the marshaled pointer (func.go, the `reflect.String`
case).  Strings are byte lists; `strings.HasSuffix(name, "\x00")` tests
the final byte. -/

/-- Go `strings.HasSuffix` on byte strings. -/
def hasSuffix (s suffix : List Nat) : Bool :=
  decide (suffix.length ≤ s.length) && decide (s.drop (s.length - suffix.length) = suffix)

/-- What `cString` returns: `existing` is an address inside an
already-live buffer (no new allocation); `fresh` is the address of a
newly allocated buffer with the given contents. -/
inductive CBuffer
  | existing (s : List Nat)
  | fresh (b : List Nat)
deriving DecidableEq, Repr

/-- Go's `copy(dst, src)`: the destination with its prefix overwritten by
`min (len dst) (len src)` bytes of the source. -/
def goCopy (dst src : List Nat) : List Nat :=
  src.take dst.length ++ dst.drop src.length

/-- `cString` of dl_darwin.go.  Both branches allocate: for a string
already ending in NUL the source returns `&[]byte(name)[0]`, and Go's
string-to-byte-slice conversion allocates a fresh slice holding a copy
of the string's bytes (a string is immutable, so the conversion cannot
alias it); otherwise `make([]byte, len(name)+1)` builds a zero-filled
buffer and `copy(b, name)` fills its prefix. -/
def cString (s : List Nat) : CBuffer :=
  if hasSuffix s [0] then .fresh s
  else .fresh (goCopy (List.replicate (s.length + 1) 0) s)

/-- The bytes the native callee reads at the marshaled pointer. -/
def CBuffer.bytes : CBuffer → List Nat
  | .existing s => s
  | .fresh b => b

/-- The `reflect.String` case of the marshaling loop: marshal the string,
append the pointer to `keepAlive`, and pass the address through `addInt`.
The buffer's numeric address is opaque (`addrOf`). -/
def marshalStringArg (arch : Arch) (addrOf : CBuffer → Nat) (s : List Nat)
    (ka : List CBuffer) (img : CallImage) : List CBuffer × CallImage :=
  let ptr := cString s
  (ka ++ [ptr], addInt arch img (addrOf ptr))

theorem goCopy_fresh (s : List Nat) :
    goCopy (List.replicate (s.length + 1) 0) s = s ++ [0] := by
  unfold goCopy
  rw [List.length_replicate, List.take_of_length_le (by omega), List.drop_replicate]
  simp

/-- C6 counterexample.  For the NUL-terminated string `"A\x00"` (bytes
`[65, 0]`), `cString` of dl_darwin.go returns a pointer to a *freshly
allocated copy* of the bytes — `&[]byte(name)[0]`, where the
string-to-slice conversion allocates and copies — not a pointer into the
string's own existing buffer. -/
theorem cString_nul_copies_counterexample :
    cString [65, 0] = CBuffer.fresh [65, 0] ∧
      cString [65, 0] ≠ CBuffer.existing [65, 0] := by
  refine ⟨by decide, by decide⟩

/-- C6 (amended).  `cString` always allocates: a host string already
ending in a NUL byte is passed as a pointer to a fresh copy of exactly
its own bytes (no additional NUL appended); otherwise `cString` returns
a fresh buffer of length `len(s)+1` holding the original bytes plus
exactly one trailing zero byte.  In both cases the marshaled pointer is
appended to the call's keep-alive set before its address is placed as an
integer argument. -/
theorem cString_marshal_spec (arch : Arch) (addrOf : CBuffer → Nat) (s : List Nat)
    (ka : List CBuffer) (img : CallImage) :
    cString s = (if hasSuffix s [0] then CBuffer.fresh s
                 else CBuffer.fresh (s ++ [0])) ∧
      hasSuffix s [0] = decide (s.getLast? = some 0) ∧
      (cString s).bytes.length =
        (if hasSuffix s [0] then s.length else s.length + 1) ∧
      (marshalStringArg arch addrOf s ka img).1 = ka ++ [cString s] ∧
      (marshalStringArg arch addrOf s ka img).2 = addInt arch img (addrOf (cString s)) := by
  have hsuf : hasSuffix s [0] = decide (s.getLast? = some 0) := by
    induction s using List.reverseRecOn with
    | nil => simp [hasSuffix]
    | append_singleton xs x _ =>
      simp only [hasSuffix, List.length_append, List.length_cons, List.length_nil,
        Nat.add_sub_cancel, List.drop_left, List.getLast?_concat]
      simp
  have hcs : cString s = (if hasSuffix s [0] then CBuffer.fresh s
      else CBuffer.fresh (s ++ [0])) := by
    unfold cString
    by_cases h : hasSuffix s [0] <;> simp [h, goCopy_fresh]
  refine ⟨hcs, hsuf, ?_, rfl, rfl⟩
  rw [hcs]
  by_cases h : hasSuffix s [0] <;> simp [h, CBuffer.bytes]

/-!  The bind-time capacity check of `RegisterFunc` (func.go: "this code
checks how many registers and stack this function will use to avoid
crashing with too many arguments"). -/

/-- A declared scalar parameter's bind-time class: every kind of the big
integer case (String, Uintptr, Uint…, Int…, Ptr, UnsafePointer, Slice,
Func, Bool) or a float kind (Float32, Float64). -/
inductive ParamKind
  | intParam
  | floatParam
deriving DecidableEq, Repr

/-- The bind-time class of a scalar argument. -/
def kindOf (a : ScalarArg) : ParamKind :=
  if isFloatKind a then .floatParam else .intParam

/-- The bind-time `ints`/`floats`/`stack` counters. -/
structure BindCounts where
  ints : Nat
  floats : Nat
  stack : Nat
deriving DecidableEq, Repr

/-- The counting loop over declared parameter kinds. -/
def bindCount (arch : Arch) (c : BindCounts) : List ParamKind → BindCounts
  | [] => c
  | .intParam :: rest =>
    if c.ints < numOfIntegerRegisters arch then
      bindCount arch { c with ints := c.ints + 1 } rest
    else bindCount arch { c with stack := c.stack + 1 } rest
  | .floatParam :: rest =>
    if c.floats < numOfFloats then
      bindCount arch { c with floats := c.floats + 1 } rest
    else bindCount arch { c with stack := c.stack + 1 } rest

/-- `sizeOfStack := maxArgs - numOfIntegerRegisters()`; `RegisterFunc`
panics with "purego: too many arguments" exactly when the counted stack
use exceeds it. -/
def tooManyArgsPanic (arch : Arch) (params : List ParamKind) : Bool :=
  maxArgs - numOfIntegerRegisters arch < (bindCount arch ⟨0, 0, 0⟩ params).stack

def nIntP (ps : List ParamKind) : Nat := (ps.filter fun p => p == ParamKind.intParam).length

def nFloatP (ps : List ParamKind) : Nat := (ps.filter fun p => p == ParamKind.floatParam).length

theorem bindCount_spec (arch : Arch) (ps : List ParamKind) (c : BindCounts)
    (hI : c.ints ≤ numOfIntegerRegisters arch) (hF : c.floats ≤ numOfFloats) :
    bindCount arch c ps =
      ⟨min (numOfIntegerRegisters arch) (c.ints + nIntP ps),
       min numOfFloats (c.floats + nFloatP ps),
       c.stack + (c.ints + nIntP ps - numOfIntegerRegisters arch)
         + (c.floats + nFloatP ps - numOfFloats)⟩ := by
  induction ps generalizing c with
  | nil =>
    rcases c with ⟨ci, cf, cs⟩
    simp only at hI hF
    simp only [bindCount, nIntP, nFloatP, List.filter_nil, List.length_nil,
      Nat.add_zero, BindCounts.mk.injEq]
    omega
  | cons p rest ih =>
    have hInt : nIntP (ParamKind.intParam :: rest) = nIntP rest + 1 := by
      simp [nIntP]
    have hIntF : nFloatP (ParamKind.intParam :: rest) = nFloatP rest := by
      simp [nFloatP]
    have hFloat : nFloatP (ParamKind.floatParam :: rest) = nFloatP rest + 1 := by
      simp [nFloatP]
    have hFloatI : nIntP (ParamKind.floatParam :: rest) = nIntP rest := by
      simp [nIntP]
    rcases c with ⟨ci, cf, cs⟩
    simp only at hI hF
    cases p with
    | intParam =>
      simp only [bindCount, hInt, hIntF]
      by_cases h : ci < numOfIntegerRegisters arch
      · rw [if_pos h, ih ⟨ci + 1, cf, cs⟩ (by show ci + 1 ≤ _; omega) (by show cf ≤ _; omega)]
        dsimp only
        simp only [BindCounts.mk.injEq]
        refine ⟨by congr 1; omega, trivial, by omega⟩
      · rw [if_neg h, ih ⟨ci, cf, cs + 1⟩ (by show ci ≤ _; omega) (by show cf ≤ _; omega)]
        dsimp only
        simp only [BindCounts.mk.injEq]
        refine ⟨?_, trivial, by omega⟩
        rw [min_eq_left (by omega), min_eq_left (by omega)]
    | floatParam =>
      simp only [bindCount, hFloat, hFloatI]
      by_cases h : cf < numOfFloats
      · rw [if_pos h, ih ⟨ci, cf + 1, cs⟩ (by show ci ≤ _; omega) (by show cf + 1 ≤ _; omega)]
        dsimp only
        simp only [BindCounts.mk.injEq]
        refine ⟨trivial, by congr 1; omega, by omega⟩
      · rw [if_neg h, ih ⟨ci, cf, cs + 1⟩ (by show ci ≤ _; omega) (by show cf ≤ _; omega)]
        dsimp only
        simp only [BindCounts.mk.injEq]
        refine ⟨trivial, ?_, by omega⟩
        rw [min_eq_left (by omega), min_eq_left (by omega)]

theorem kindOf_counts (args : List ScalarArg) :
    nIntP (args.map kindOf) = (intVals args).length ∧
      nFloatP (args.map kindOf) = (floatVals args).length := by
  induction args with
  | nil => simp [nIntP, nFloatP, intVals, floatVals]
  | cons a rest ih =>
    by_cases hfk : isFloatKind a <;>
      simp [nIntP, nFloatP, intVals, floatVals, kindOf, hfk, List.filter_cons] at ih ⊢ <;>
      exact ih

/-- C7.  The "too many arguments" check is performed eagerly at bind time:
it fires exactly when the stack slots counted for the declared parameter
kinds exceed `maxArgs - numOfIntegerRegisters()`; the bind-time stack
count equals the stack slots the call path will actually use for
arguments of those kinds, so a binding that passes the check never
overflows the stack buffer at call time. -/
theorem bind_time_stack_check (arch : Arch) (args : List ScalarArg) :
    (tooManyArgsPanic arch (args.map kindOf) =
        decide (maxArgs - numOfIntegerRegisters arch <
          ((intVals args).length - numOfIntegerRegisters arch)
            + ((floatVals args).length - numOfFloats))) ∧
      ((bindCount arch ⟨0, 0, 0⟩ (args.map kindOf)).stack =
        (marshalArgs arch CallImage.empty args).stack.length) ∧
      (tooManyArgsPanic arch (args.map kindOf) = false →
        (marshalArgs arch CallImage.empty args).stack.length ≤
          maxArgs - numOfIntegerRegisters arch) := by
  have hk := kindOf_counts args
  have hb := bindCount_spec arch (args.map kindOf) ⟨0, 0, 0⟩ (by simp) (by simp)
  have hstack : (bindCount arch ⟨0, 0, 0⟩ (args.map kindOf)).stack =
      ((intVals args).length - numOfIntegerRegisters arch)
        + ((floatVals args).length - numOfFloats) := by
    rw [hb]
    simp [hk.1, hk.2]
  have hcall := (marshal_overflow_invariants arch args).2.2.2.2.1
  refine ⟨?_, ?_, ?_⟩
  · simp only [tooManyArgsPanic, hstack]
  · rw [hstack, hcall]
  · intro hno
    simp only [tooManyArgsPanic, hstack] at hno
    rw [hcall]
    simpa using hno

/-!  The validation prefix of `RegisterFunc` (func.go:101-161): the panics
raised at registration time, before the callable closure is built and
before any native call can happen. -/

/-- The bind-time panics of `RegisterFunc`, in source order. -/
inductive RegisterPanic
  | notFuncPtr
  | tooManyReturns
  | nilCfn
  | tooManyArgs
deriving DecidableEq, Repr

/-- The declared shape `RegisterFunc` inspects through reflection: whether
`fptr` points at a Go function, how many results it declares, and its
scalar parameter kinds. -/
structure FnType where
  isFunc : Bool
  numOut : Nat
  params : List ParamKind
deriving DecidableEq, Repr

/-- The bind-time validation of `RegisterFunc`: `none` means the binding
is created; `some p` means the named panic fires before any call. -/
def registerFuncChecks (arch : Arch) (ty : FnType) (cfn : Nat) : Option RegisterPanic :=
  if !ty.isFunc then some .notFuncPtr
  else if 1 < ty.numOut then some .tooManyReturns
  else if cfn = 0 then some .nilCfn
  else if tooManyArgsPanic arch ty.params then some .tooManyArgs
  else none

/-- C10.  `RegisterFunc` panics at registration time whenever `fptr` is
not a function pointer, more than one result is declared, or the resolved
address is 0 — in particular the sentinel address 0 that `Dlsym` returns
for a missing symbol can never be bound: binding succeeds exactly when
all preconditions hold. -/
theorem registerFunc_validation (arch : Arch) (ty : FnType) (cfn : Nat) :
    (registerFuncChecks arch ty 0).isSome = true ∧
      (registerFuncChecks arch ty cfn = none ↔
        (ty.isFunc = true ∧ ty.numOut ≤ 1 ∧ cfn ≠ 0 ∧
          tooManyArgsPanic arch ty.params = false)) := by
  constructor
  · unfold registerFuncChecks
    split <;> simp_all
    split <;> simp_all
  · unfold registerFuncChecks
    split_ifs <;> simp_all

/-!  Struct arguments.  A struct value is its ordered list of flat scalar
fields (the shapes the amd64 stack-placement loop of func.go supports:
fixed-width integers, floats and pointers); every field stores its Go bit
pattern as a `Nat`, masked to the field's width where the code reads it
(a Go `uint8` value is its low 8 bits; a signed field's `f.Int()` is the
sign extension of its stored pattern). -/

/-- The reflect kinds of the flat struct fields. -/
inductive FieldKind
  | u8 | u16 | u32 | u64
  | i8 | i16 | i32 | i64
  | f32 | f64 | ptr
deriving DecidableEq, Repr

/-- `f.Type().Size()` per field kind. -/
def FieldKind.size : FieldKind → Nat
  | .u8 | .i8 => 1
  | .u16 | .i16 => 2
  | .u32 | .i32 | .f32 => 4
  | .u64 | .i64 | .f64 | .ptr => 8

/-- One struct field: its kind and its value's bit pattern. -/
structure Field where
  kind : FieldKind
  val : Nat
deriving DecidableEq, Repr

/-- Round `off` up to a multiple of the alignment `a`. -/
def alignUp (off a : Nat) : Nat := (off + a - 1) / a * a

/-- Field offset accumulation of the Go struct layout (each scalar's
alignment equals its size). -/
def structSizeAux : Nat → List Field → Nat
  | off, [] => off
  | off, f :: rest => structSizeAux (alignUp off f.kind.size + f.kind.size) rest

/-- The struct's alignment: the maximal field alignment. -/
def structAlign (fs : List Field) : Nat :=
  fs.foldr (fun f a => max f.kind.size a) 1

/-- `v.Type().Size()` of the struct: the padded Go layout size. -/
def structSize (fs : List Field) : Nat :=
  alignUp (structSizeAux 0 fs) (structAlign fs)

/-!  The amd64 eightbyte classifier.  Both amd64 `addStruct` versions
(func.go and struct_amd64.go) share one per-field body; they differ only
in when the packed eightbyte is flushed.  The class lattice is the
source's: `NO_CLASS = 0`, `SSE = 1`, `INTEGER = 7`, merged with `|=`. -/

/-- The classifier's running state: the call image built so far, the
packed eightbyte `val`, the bit position `shift`, the merged `class`,
whether an eightbyte was already flushed, and whether the whole struct
goes to the stack. -/
structure ClsState where
  img : CallImage
  val : Nat
  shift : Nat
  cls : Nat
  flushed : Bool
  onStack : Bool
deriving DecidableEq, Repr

/-- Flush the packed eightbyte: `addFloat` when the class is exactly SSE,
else `addInt` (INTEGER dominates); `val` is not reset. -/
def flushEightbyte (st : ClsState) : ClsState :=
  { st with
    shift := 0, flushed := true, cls := 0,
    img := if st.cls = 1 then addFloat st.img st.val else addInt .amd64 st.img st.val }

/-- One field of the classification switch (`sz` is the whole struct's
size).  The `Bool` is `true` when the source does `break loop`. -/
def amd64FieldAdd (sz : Nat) (st : ClsState) (f : Field) : ClsState × Bool :=
  match f.kind with
  | .ptr => ({ st with onStack := true }, true)
  | .i8 =>
    ({ st with
        val := st.val ||| shl64 (f.val % 2 ^ 8) st.shift,
        shift := st.shift + 8,
        cls := st.cls ||| 7 }, false)
  | .i16 =>
    ({ st with
        val := st.val ||| shl64 (f.val % 2 ^ 16) st.shift,
        shift := st.shift + 16,
        cls := st.cls ||| 7 }, false)
  | .i32 =>
    ({ st with
        val := st.val ||| shl64 (f.val % 2 ^ 32) st.shift,
        shift := st.shift + 32,
        cls := st.cls ||| 7 }, false)
  | .i64 =>
    ({ st with
        img := addInt .amd64 st.img (u64 f.val),
        shift := 0,
        cls := 0 }, false)
  | .u8 =>
    ({ st with
        val := st.val ||| shl64 (f.val % 2 ^ 8) st.shift,
        shift := st.shift + 8,
        cls := st.cls ||| 7 }, false)
  | .u16 =>
    ({ st with
        val := st.val ||| shl64 (f.val % 2 ^ 16) st.shift,
        shift := st.shift + 16,
        cls := st.cls ||| 7 }, false)
  | .u32 =>
    ({ st with
        val := st.val ||| shl64 (f.val % 2 ^ 32) st.shift,
        shift := st.shift + 32,
        cls := st.cls ||| 7 }, false)
  | .u64 =>
    ({ st with
        img := addInt .amd64 st.img (u64 f.val),
        shift := 0,
        cls := 0 }, false)
  | .f32 =>
    ({ st with
        val := st.val ||| shl64 (f.val % 2 ^ 32) st.shift,
        shift := st.shift + 32,
        cls := st.cls ||| 1 }, false)
  | .f64 =>
    if 16 < sz then ({ st with onStack := true }, true)
    else ({ st with img := addFloat st.img (u64 f.val), cls := 0 }, false)

/-- The field loop of func.go's amd64 branch: flush when the *next* field
would not fit the current eightbyte (`shift + size*8 > 64`). -/
def amd64LoopFn (sz : Nat) (st : ClsState) : List Field → ClsState
  | [] => st
  | f :: fs =>
    let st1 := if 64 < st.shift + 8 * f.kind.size then flushEightbyte st else st
    match amd64FieldAdd sz st1 f with
    | (st2, true) => st2
    | (st2, false) => amd64LoopFn sz st2 fs

/-- The field loop of struct_amd64.go: flush only once `shift >= 64`. -/
def amd64LoopSt (sz : Nat) (st : ClsState) : List Field → ClsState
  | [] => st
  | f :: fs =>
    let st1 := if 64 ≤ st.shift then flushEightbyte st else st
    match amd64FieldAdd sz st1 f with
    | (st2, true) => st2
    | (st2, false) => amd64LoopSt sz st2 fs

/-- The value `addStack` receives for a field in the placed-on-stack loop
(`uintptr(f.Int())` sign-extends narrow signed fields). -/
def stackFieldVal : Field → Nat
  | ⟨.ptr, v⟩ => u64 v
  | ⟨.i8, v⟩ => sext 8 v
  | ⟨.i16, v⟩ => sext 16 v
  | ⟨.i32, v⟩ => sext 32 v
  | ⟨.i64, v⟩ => u64 v
  | ⟨.u8, v⟩ => v % 2 ^ 8
  | ⟨.u16, v⟩ => v % 2 ^ 16
  | ⟨.u32, v⟩ => v % 2 ^ 32
  | ⟨.u64, v⟩ => u64 v
  | ⟨.f32, v⟩ => v % 2 ^ 32
  | ⟨.f64, v⟩ => u64 v

/-- The `if !flushed { … }` emission after the field loop. -/
def finalFlush (st : ClsState) : ClsState :=
  if st.flushed then st
  else { st with
    img := if st.cls = 1 then addFloat st.img st.val else addInt .amd64 st.img st.val }

/-- After the loop: on the stack path, roll the counters back to the
entry image and push every field through `addStack`; otherwise keep the
register commitments. -/
def amd64Finish (fs : List Field) (img : CallImage) (st : ClsState) : CallImage :=
  if st.onStack then fs.foldl (fun im f => addStack im (stackFieldVal f)) img
  else st.img

/-- `addStruct` of func.go, amd64 branch, on a flat struct. -/
def addStructAmd64Fn (fs : List Field) (img : CallImage) : CallImage :=
  if structSize fs = 0 then img
  else
    amd64Finish fs img
      (finalFlush (amd64LoopFn (structSize fs)
        ⟨img, 0, 0, 0, false, decide (8 * 8 < structSize fs)⟩ fs))

/-- `addStruct` of struct_amd64.go on a flat struct. -/
def addStructAmd64St (fs : List Field) (img : CallImage) : CallImage :=
  if structSize fs = 0 then img
  else
    amd64Finish fs img
      (finalFlush (amd64LoopSt (structSize fs)
        ⟨img, 0, 0, 0, false, decide (8 * 8 < structSize fs)⟩ fs))

theorem lor_eq_add_of_lt (x y k : Nat) (hx : x < 2 ^ k) :
    x ||| y * 2 ^ k = x + y * 2 ^ k := by
  apply Nat.eq_of_testBit_eq
  intro i
  rw [Nat.testBit_lor]
  rcases Nat.lt_or_ge i k with hik | hik
  · have hsplit : y * 2 ^ k = y * 2 ^ (k - i) * 2 ^ i := by
      rw [Nat.mul_assoc, ← Nat.pow_add]
      congr 2
      omega
    have hev : y * 2 ^ (k - i) % 2 = 0 := by
      have h2 : (2 : Nat) ∣ 2 ^ (k - i) := dvd_pow_self 2 (by omega)
      have : (2 : Nat) ∣ y * 2 ^ (k - i) := Dvd.dvd.mul_left h2 y
      omega
    have hm : (y * 2 ^ k).testBit i = false := by
      rw [Nat.testBit_to_div_mod, hsplit, Nat.mul_div_cancel _ (Nat.two_pow_pos i)]
      simp [hev]
    have harith : (x + y * 2 ^ k) / 2 ^ i % 2 = x / 2 ^ i % 2 := by
      rw [hsplit, Nat.add_mul_div_right _ _ (Nat.two_pow_pos i)]
      omega
    rw [hm, Bool.or_false, Nat.testBit_to_div_mod, Nat.testBit_to_div_mod, harith]
  · have hx0 : x.testBit i = false :=
      Nat.testBit_lt_two_pow (lt_of_lt_of_le hx (Nat.pow_le_pow_right (by omega) hik))
    have hsplit : (2 : Nat) ^ i = 2 ^ k * 2 ^ (i - k) := by
      rw [← Nat.pow_add]
      congr 1
      omega
    have harith : (x + y * 2 ^ k) / 2 ^ i % 2 = (y * 2 ^ k) / 2 ^ i % 2 := by
      rw [hsplit, ← Nat.div_div_eq_div_mul, ← Nat.div_div_eq_div_mul]
      have h1 : (x + y * 2 ^ k) / 2 ^ k = y * 2 ^ k / 2 ^ k := by
        rw [Nat.add_mul_div_right _ _ (Nat.two_pow_pos k),
          Nat.mul_div_cancel _ (Nat.two_pow_pos k), Nat.div_eq_of_lt hx]
        omega
      rw [h1]
    rw [hx0, Bool.false_or, Nat.testBit_to_div_mod, Nat.testBit_to_div_mod, harith]

theorem shl64_eq_mul (x s : Nat) (h : x * 2 ^ s < 2 ^ 64) : shl64 x s = x * 2 ^ s := by
  unfold shl64
  rw [Nat.shiftLeft_eq, Nat.mod_eq_of_lt h]

/-- Reading the field stored at byte offset `off` with width `w` bytes
back out of a packed eightbyte: the inverse of the placement layout. -/
def extractField (x off w : Nat) : Nat := x / 2 ^ (8 * off) % 2 ^ (8 * w)

/-- C1 counterexample.  For the struct `{uint8; uint8; uint8; uint8;
float32}` (values 1, 2, 3, 4 and the bits of 1.0) both amd64 classifiers
place *all five* fields in a single integer eightbyte: the float-register
slot list stays empty, refuting the claimed separate SSE eightbyte
(`addFloat` slot) for the float32. -/
theorem pack_u8x4_f32_counterexample :
    addStructAmd64Fn [⟨.u8, 1⟩, ⟨.u8, 2⟩, ⟨.u8, 3⟩, ⟨.u8, 4⟩, ⟨.f32, 0x3F800000⟩]
        CallImage.empty = ⟨[0x3F80000004030201], [], []⟩ ∧
      addStructAmd64St [⟨.u8, 1⟩, ⟨.u8, 2⟩, ⟨.u8, 3⟩, ⟨.u8, 4⟩, ⟨.f32, 0x3F800000⟩]
        CallImage.empty = ⟨[0x3F80000004030201], [], []⟩ := by
  constructor <;> decide

/-- C1 (amended).  The struct `{uint8 x 4; float32}` is 8 bytes — one
eightbyte — so the four bytes land in bits 0..31 and the float32 bits in
bits 32..63 of a *single* integer-class eightbyte (INTEGER dominates
SSE), emitted through one `addInt`; no float slot and no stack slot is
touched, and extracting the bytes at the layout's offsets from that one
eightbyte reconstructs all five field values exactly. -/
theorem pack_u8x4_f32_single_int_eightbyte (a b c d e : Nat) (img : CallImage)
    (ha : a < 2 ^ 8) (hb : b < 2 ^ 8) (hc : c < 2 ^ 8) (hd : d < 2 ^ 8)
    (he : e < 2 ^ 32) (hroom : img.ints.length < numOfIntegerRegisters .amd64) :
    addStructAmd64Fn [⟨.u8, a⟩, ⟨.u8, b⟩, ⟨.u8, c⟩, ⟨.u8, d⟩, ⟨.f32, e⟩] img =
        { img with ints := img.ints ++
            [a + b * 2 ^ 8 + c * 2 ^ 16 + d * 2 ^ 24 + e * 2 ^ 32] } ∧
      extractField (a + b * 2 ^ 8 + c * 2 ^ 16 + d * 2 ^ 24 + e * 2 ^ 32) 0 1 = a ∧
      extractField (a + b * 2 ^ 8 + c * 2 ^ 16 + d * 2 ^ 24 + e * 2 ^ 32) 1 1 = b ∧
      extractField (a + b * 2 ^ 8 + c * 2 ^ 16 + d * 2 ^ 24 + e * 2 ^ 32) 2 1 = c ∧
      extractField (a + b * 2 ^ 8 + c * 2 ^ 16 + d * 2 ^ 24 + e * 2 ^ 32) 3 1 = d ∧
      extractField (a + b * 2 ^ 8 + c * 2 ^ 16 + d * 2 ^ 24 + e * 2 ^ 32) 4 4 = e := by
  have hval : shl64 (a % 2 ^ 8) 0 ||| shl64 (b % 2 ^ 8) 8 ||| shl64 (c % 2 ^ 8) 16 |||
        shl64 (d % 2 ^ 8) 24 ||| shl64 (e % 2 ^ 32) 32 =
      a + b * 2 ^ 8 + c * 2 ^ 16 + d * 2 ^ 24 + e * 2 ^ 32 := by
    rw [Nat.mod_eq_of_lt ha, Nat.mod_eq_of_lt hb, Nat.mod_eq_of_lt hc,
      Nat.mod_eq_of_lt hd, Nat.mod_eq_of_lt he,
      shl64_eq_mul a 0 (by omega), shl64_eq_mul b 8 (by omega),
      shl64_eq_mul c 16 (by omega), shl64_eq_mul d 24 (by omega),
      shl64_eq_mul e 32 (by omega)]
    simp only [pow_zero, Nat.mul_one]
    rw [lor_eq_add_of_lt a b 8 ha,
      lor_eq_add_of_lt (a + b * 2 ^ 8) c 16 (by omega),
      lor_eq_add_of_lt (a + b * 2 ^ 8 + c * 2 ^ 16) d 24 (by omega),
      lor_eq_add_of_lt (a + b * 2 ^ 8 + c * 2 ^ 16 + d * 2 ^ 24) e 32 (by omega)]
  have h0 : addStructAmd64Fn [⟨.u8, a⟩, ⟨.u8, b⟩, ⟨.u8, c⟩, ⟨.u8, d⟩, ⟨.f32, e⟩] img =
      addInt .amd64 img (shl64 (a % 2 ^ 8) 0 ||| shl64 (b % 2 ^ 8) 8 |||
        shl64 (c % 2 ^ 8) 16 ||| shl64 (d % 2 ^ 8) 24 ||| shl64 (e % 2 ^ 32) 32) := by
    simp only [addStructAmd64Fn, amd64LoopFn, amd64FieldAdd, finalFlush, amd64Finish,
      flushEightbyte, structSize, structSizeAux, structAlign, alignUp, FieldKind.size]
    norm_num
    intro h
    exact absurd h (by decide)
  have hroom6 : ¬ numOfIntegerRegisters .amd64 ≤ img.ints.length := by omega
  refine ⟨?_, ?_, ?_, ?_, ?_, ?_⟩
  · rw [h0, hval, addInt, if_neg hroom6]
  all_goals
    simp only [extractField]
    norm_num
    omega

/-- Witness for C1's amended theorem at concrete field values. -/
theorem pack_u8x4_f32_single_int_eightbyte_witness :
    addStructAmd64Fn [⟨.u8, 1⟩, ⟨.u8, 2⟩, ⟨.u8, 3⟩, ⟨.u8, 4⟩, ⟨.f32, 0x3F800001⟩]
        CallImage.empty =
      { CallImage.empty with ints := CallImage.empty.ints ++
          [1 + 2 * 2 ^ 8 + 3 * 2 ^ 16 + 4 * 2 ^ 24 + 0x3F800001 * 2 ^ 32] } ∧
      extractField (1 + 2 * 2 ^ 8 + 3 * 2 ^ 16 + 4 * 2 ^ 24 + 0x3F800001 * 2 ^ 32) 0 1 = 1 ∧
      extractField (1 + 2 * 2 ^ 8 + 3 * 2 ^ 16 + 4 * 2 ^ 24 + 0x3F800001 * 2 ^ 32) 1 1 = 2 ∧
      extractField (1 + 2 * 2 ^ 8 + 3 * 2 ^ 16 + 4 * 2 ^ 24 + 0x3F800001 * 2 ^ 32) 2 1 = 3 ∧
      extractField (1 + 2 * 2 ^ 8 + 3 * 2 ^ 16 + 4 * 2 ^ 24 + 0x3F800001 * 2 ^ 32) 3 1 = 4 ∧
      extractField (1 + 2 * 2 ^ 8 + 3 * 2 ^ 16 + 4 * 2 ^ 24 + 0x3F800001 * 2 ^ 32) 4 4 =
        0x3F800001 :=
  pack_u8x4_f32_single_int_eightbyte 1 2 3 4 0x3F800001 CallImage.empty
    (by decide) (by decide) (by decide) (by decide) (by decide) (by decide)

theorem fieldKind_size_pos (k : FieldKind) : 0 < k.size := by
  cases k <;> decide

theorem le_alignUp (off a : Nat) (ha : 0 < a) : off ≤ alignUp off a := by
  unfold alignUp
  rw [Nat.mul_comm]
  have h1 := Nat.div_add_mod (off + a - 1) a
  have h2 := Nat.mod_lt (off + a - 1) ha
  omega

theorem le_structSizeAux (fs : List Field) (off : Nat) : off ≤ structSizeAux off fs := by
  induction fs generalizing off with
  | nil => exact Nat.le_refl off
  | cons f rest ih =>
    calc off ≤ alignUp off f.kind.size := le_alignUp _ _ (fieldKind_size_pos _)
      _ ≤ alignUp off f.kind.size + f.kind.size := Nat.le_add_right _ _
      _ ≤ structSizeAux (alignUp off f.kind.size + f.kind.size) rest := ih _

theorem one_le_structAlign (fs : List Field) : 1 ≤ structAlign fs := by
  induction fs with
  | nil => exact Nat.le_refl 1
  | cons f rest ih =>
    simp only [structAlign, List.foldr_cons] at ih ⊢
    omega

theorem structSize_pos (fs : List Field) (h : fs ≠ []) : 0 < structSize fs := by
  rcases fs with _ | ⟨f, rest⟩
  · exact absurd rfl h
  · have h1 : 1 ≤ structSizeAux 0 (f :: rest) := by
      unfold structSizeAux
      calc 1 ≤ alignUp 0 f.kind.size + f.kind.size := by
            have := fieldKind_size_pos f.kind
            omega
        _ ≤ structSizeAux (alignUp 0 f.kind.size + f.kind.size) rest := le_structSizeAux _ _
    calc 1 ≤ structSizeAux 0 (f :: rest) := h1
      _ ≤ alignUp (structSizeAux 0 (f :: rest)) (structAlign (f :: rest)) :=
          le_alignUp _ _ (one_le_structAlign _)

theorem amd64FieldAdd_onStack_mono (sz : Nat) (st : ClsState) (f : Field)
    (h : st.onStack = true) : (amd64FieldAdd sz st f).1.onStack = true := by
  rcases f with ⟨k, v⟩
  cases k <;> simp only [amd64FieldAdd] <;>
    first
      | exact h
      | rfl
      | (split <;> first | rfl | exact h)

theorem flushEightbyte_onStack (st : ClsState) :
    (flushEightbyte st).onStack = st.onStack := rfl

theorem amd64LoopFn_onStack_mono (sz : Nat) (fs : List Field) (st : ClsState)
    (h : st.onStack = true) : (amd64LoopFn sz st fs).onStack = true := by
  induction fs generalizing st with
  | nil => exact h
  | cons f rest ih =>
    unfold amd64LoopFn
    have h1 : (if 64 < st.shift + 8 * f.kind.size then flushEightbyte st else st).onStack
        = true := by
      split
      · rw [flushEightbyte_onStack]
        exact h
      · exact h
    rcases hsplit : amd64FieldAdd sz
        (if 64 < st.shift + 8 * f.kind.size then flushEightbyte st else st) f with ⟨st2, br⟩
    have h2 : st2.onStack = true := by
      have := amd64FieldAdd_onStack_mono sz _ f h1
      rw [hsplit] at this
      exact this
    cases br
    · simp only [hsplit]
      exact ih st2 h2
    · simp only [hsplit]
      exact h2

theorem amd64LoopSt_onStack_mono (sz : Nat) (fs : List Field) (st : ClsState)
    (h : st.onStack = true) : (amd64LoopSt sz st fs).onStack = true := by
  induction fs generalizing st with
  | nil => exact h
  | cons f rest ih =>
    unfold amd64LoopSt
    have h1 : (if 64 ≤ st.shift then flushEightbyte st else st).onStack = true := by
      split
      · rw [flushEightbyte_onStack]
        exact h
      · exact h
    rcases hsplit : amd64FieldAdd sz
        (if 64 ≤ st.shift then flushEightbyte st else st) f with ⟨st2, br⟩
    have h2 : st2.onStack = true := by
      have := amd64FieldAdd_onStack_mono sz _ f h1
      rw [hsplit] at this
      exact this
    cases br
    · simp only [hsplit]
      exact ih st2 h2
    · simp only [hsplit]
      exact h2

theorem amd64FieldAdd_break_onStack (sz : Nat) (st : ClsState) (f : Field)
    (h : (amd64FieldAdd sz st f).2 = true) :
    (amd64FieldAdd sz st f).1.onStack = true := by
  rcases f with ⟨k, v⟩
  cases k
  case ptr => rfl
  case f64 =>
    by_cases hsz : 16 < sz
    · simp [amd64FieldAdd, hsz]
    · simp [amd64FieldAdd, hsz] at h
  all_goals simp [amd64FieldAdd] at h

theorem amd64FieldAdd_ptr_breaks (sz : Nat) (st : ClsState) (v : Nat) :
    amd64FieldAdd sz st ⟨FieldKind.ptr, v⟩ = ({ st with onStack := true }, true) := rfl

theorem amd64LoopFn_onStack_of_ptr (sz : Nat) (fs : List Field) (st : ClsState)
    (h : (fs.any fun f => f.kind == FieldKind.ptr) = true) :
    (amd64LoopFn sz st fs).onStack = true := by
  induction fs generalizing st with
  | nil => simp at h
  | cons f rest ih =>
    unfold amd64LoopFn
    rcases hsplit : amd64FieldAdd sz
        (if 64 < st.shift + 8 * f.kind.size then flushEightbyte st else st) f with ⟨st2, br⟩
    cases br
    · simp only [hsplit]
      have hknp : f.kind ≠ FieldKind.ptr := by
        intro hk
        rcases f with ⟨k, v⟩
        have hk2 : k = FieldKind.ptr := hk
        subst hk2
        rw [amd64FieldAdd_ptr_breaks] at hsplit
        simp at hsplit
      have hrest : (rest.any fun g => g.kind == FieldKind.ptr) = true := by
        simp only [List.any_cons, Bool.or_eq_true, beq_iff_eq] at h
        rcases h with hh | hh
        · exact absurd hh hknp
        · exact hh
      exact ih _ hrest
    · simp only [hsplit]
      have hb := amd64FieldAdd_break_onStack sz
        (if 64 < st.shift + 8 * f.kind.size then flushEightbyte st else st) f
        (by rw [hsplit])
      rw [hsplit] at hb
      exact hb

theorem amd64LoopSt_onStack_of_ptr (sz : Nat) (fs : List Field) (st : ClsState)
    (h : (fs.any fun f => f.kind == FieldKind.ptr) = true) :
    (amd64LoopSt sz st fs).onStack = true := by
  induction fs generalizing st with
  | nil => simp at h
  | cons f rest ih =>
    unfold amd64LoopSt
    rcases hsplit : amd64FieldAdd sz
        (if 64 ≤ st.shift then flushEightbyte st else st) f with ⟨st2, br⟩
    cases br
    · simp only [hsplit]
      have hknp : f.kind ≠ FieldKind.ptr := by
        intro hk
        rcases f with ⟨k, v⟩
        have hk2 : k = FieldKind.ptr := hk
        subst hk2
        rw [amd64FieldAdd_ptr_breaks] at hsplit
        simp at hsplit
      have hrest : (rest.any fun g => g.kind == FieldKind.ptr) = true := by
        simp only [List.any_cons, Bool.or_eq_true, beq_iff_eq] at h
        rcases h with hh | hh
        · exact absurd hh hknp
        · exact hh
      exact ih _ hrest
    · simp only [hsplit]
      have hb := amd64FieldAdd_break_onStack sz
        (if 64 ≤ st.shift then flushEightbyte st else st) f
        (by rw [hsplit])
      rw [hsplit] at hb
      exact hb

theorem finalFlush_onStack (st : ClsState) : (finalFlush st).onStack = st.onStack := by
  unfold finalFlush
  split <;> rfl

theorem foldl_addStack_append (fs : List Field) (img : CallImage) :
    fs.foldl (fun im f => addStack im (stackFieldVal f)) img =
      { img with stack := img.stack ++ fs.map stackFieldVal } := by
  induction fs generalizing img with
  | nil => simp
  | cons f rest ih =>
    rw [List.foldl_cons, ih (addStack img (stackFieldVal f))]
    simp [addStack, List.append_assoc]

/-- C2.  A flat struct containing a pointer field, or larger than 64
bytes, is placed *whole* on the stack by both amd64 classifiers: one
`addStack` slot per field, in field order, and the register commitments
made while scanning its earlier eightbytes are rolled back atomically —
the integer and float slot lists (hence `*numInts` and `*numFloats`) are
exactly their values at entry, so no field of the struct occupies a
register slot. -/
theorem struct_ptr_or_oversize_whole_stack (fs : List Field) (img : CallImage)
    (h : (fs.any fun f => f.kind == FieldKind.ptr) = true ∨ 8 * 8 < structSize fs) :
    addStructAmd64Fn fs img = { img with stack := img.stack ++ fs.map stackFieldVal } ∧
      addStructAmd64St fs img = { img with stack := img.stack ++ fs.map stackFieldVal } ∧
      (addStructAmd64Fn fs img).ints = img.ints ∧
      (addStructAmd64Fn fs img).floats = img.floats := by
  have hne : fs ≠ [] := by
    rcases h with hptr | hbig
    · intro hnil
      rw [hnil] at hptr
      simp at hptr
    · intro hnil
      rw [hnil] at hbig
      simp [structSize, structSizeAux, structAlign, alignUp] at hbig
  have hsz0 : ¬ structSize fs = 0 := by
    have := structSize_pos fs hne
    omega
  have hOnFn : (amd64LoopFn (structSize fs)
      ⟨img, 0, 0, 0, false, decide (8 * 8 < structSize fs)⟩ fs).onStack = true := by
    rcases h with hptr | hbig
    · exact amd64LoopFn_onStack_of_ptr _ _ _ hptr
    · exact amd64LoopFn_onStack_mono _ _ _ (by simpa using hbig)
  have hOnSt : (amd64LoopSt (structSize fs)
      ⟨img, 0, 0, 0, false, decide (8 * 8 < structSize fs)⟩ fs).onStack = true := by
    rcases h with hptr | hbig
    · exact amd64LoopSt_onStack_of_ptr _ _ _ hptr
    · exact amd64LoopSt_onStack_mono _ _ _ (by simpa using hbig)
  have hFn : addStructAmd64Fn fs img =
      { img with stack := img.stack ++ fs.map stackFieldVal } := by
    unfold addStructAmd64Fn
    rw [if_neg hsz0]
    unfold amd64Finish
    rw [if_pos (by rw [finalFlush_onStack]; exact hOnFn), foldl_addStack_append]
  have hSt : addStructAmd64St fs img =
      { img with stack := img.stack ++ fs.map stackFieldVal } := by
    unfold addStructAmd64St
    rw [if_neg hsz0]
    unfold amd64Finish
    rw [if_pos (by rw [finalFlush_onStack]; exact hOnSt), foldl_addStack_append]
  exact ⟨hFn, hSt, by rw [hFn], by rw [hFn]⟩

/-- Witness for C2 at a concrete pointer-holding struct. -/
theorem struct_ptr_or_oversize_whole_stack_witness :
    addStructAmd64Fn [⟨.u32, 9⟩, ⟨.ptr, 5⟩] CallImage.empty =
        { CallImage.empty with stack := CallImage.empty.stack ++
            ([⟨.u32, 9⟩, ⟨.ptr, 5⟩] : List Field).map stackFieldVal } ∧
      addStructAmd64St [⟨.u32, 9⟩, ⟨.ptr, 5⟩] CallImage.empty =
        { CallImage.empty with stack := CallImage.empty.stack ++
            ([⟨.u32, 9⟩, ⟨.ptr, 5⟩] : List Field).map stackFieldVal } ∧
      (addStructAmd64Fn [⟨.u32, 9⟩, ⟨.ptr, 5⟩] CallImage.empty).ints =
        CallImage.empty.ints ∧
      (addStructAmd64Fn [⟨.u32, 9⟩, ⟨.ptr, 5⟩] CallImage.empty).floats =
        CallImage.empty.floats :=
  struct_ptr_or_oversize_whole_stack [⟨.u32, 9⟩, ⟨.ptr, 5⟩] CallImage.empty
    (Or.inl (by decide))

/-!  The arm64 branch of `addStruct` (func.go) on flat structs.
`roundUpTo8` is func.go's `(val + 7) &^ 7`. -/

def roundUpTo8 (v : Nat) : Nat := (v + 7) / 8 * 8

/-- `isHFA` of func.go on a flat struct (no array fields): at most four
fields, the first a float kind, all fields of the first's kind. -/
def isHFA (fs : List Field) : Bool :=
  if roundUpTo8 (structSize fs) = 0 || 4 < fs.length then false
  else
    match fs with
    | [] => false
    | f :: _ =>
      match f.kind with
      | .f32 | .f64 => fs.all fun g => g.kind == f.kind
      | _ => false

/-- `isHVA` of func.go on a flat struct: rounded size 8 or 16, the first
field a small integer kind, all fields of the first's kind. -/
def isHVA (fs : List Field) : Bool :=
  if roundUpTo8 (structSize fs) = 0 ||
      (roundUpTo8 (structSize fs) != 8 && roundUpTo8 (structSize fs) != 16) then false
  else
    match fs with
    | [] => false
    | f :: _ =>
      match f.kind with
      | .u8 | .u16 | .u32 | .i8 | .i16 | .i32 => fs.all fun g => g.kind == f.kind
      | _ => false

/-- The arm64 register-path packing state: image, packed value, bit shift
and whether a flush already happened. -/
structure Arm64State where
  img : CallImage
  val : Nat
  shift : Nat
  flushed : Bool
deriving DecidableEq, Repr

/-- One iteration of the arm64 register-path field loop: flush the packed
value once `shift >= 64`, then dispatch on the field kind.  `none` is the
source's panic (the arm64 register path has no `Pointer` case). -/
def arm64FieldAdd (st0 : Arm64State) (f : Field) : Option Arm64State :=
  let st := if 64 ≤ st0.shift then
      { st0 with
          shift := 0,
          flushed := true,
          img := addInt .arm64 st0.img (u64 st0.val) }
    else st0
  match f.kind with
  | .u8 => some { st with val := st.val ||| shl64 (f.val % 2 ^ 8) st.shift, shift := st.shift + 8 }
  | .u16 => some { st with val := st.val ||| shl64 (f.val % 2 ^ 16) st.shift, shift := st.shift + 16 }
  | .u32 => some { st with val := st.val ||| shl64 (f.val % 2 ^ 32) st.shift, shift := st.shift + 32 }
  | .u64 => some { st with img := addInt .arm64 st.img (u64 f.val), shift := 0 }
  | .i8 => some { st with val := st.val ||| shl64 (f.val % 2 ^ 8) st.shift, shift := st.shift + 8 }
  | .i16 => some { st with val := st.val ||| shl64 (f.val % 2 ^ 16) st.shift, shift := st.shift + 16 }
  | .i32 => some { st with val := st.val ||| shl64 (f.val % 2 ^ 32) st.shift, shift := st.shift + 32 }
  | .i64 => some { st with img := addInt .arm64 st.img (u64 f.val), shift := 0 }
  | .f32 => some { st with img := addFloat st.img (f.val % 2 ^ 32) }
  | .f64 => some { st with img := addFloat st.img (u64 f.val) }
  | .ptr => none

def arm64Loop (st : Arm64State) : List Field → Option Arm64State
  | [] => some st
  | f :: fs =>
    match arm64FieldAdd st f with
    | none => none
    | some st2 => arm64Loop st2 fs

/-- `addStruct` of func.go, arm64 branch, on a flat struct.  `bufPtr` is
the (opaque) address of the `reflect.New` copy used on the
pass-by-reference path; the `List Nat` is the keepAlive set of buffer
addresses. -/
def addStructArm64 (bufPtr : Nat) (fs : List Field) (ka : List Nat) (img : CallImage) :
    Option (List Nat × CallImage) :=
  let hva := isHVA fs
  let hfa := isHFA fs
  if hva || hfa || structSize fs ≤ 16 then
    let img1 :=
      if hfa && decide (numOfFloats < img.floats.length + fs.length) then
        { img with floats := img.floats ++ List.replicate (numOfFloats - img.floats.length) 0 }
      else if hva && decide (numOfIntegerRegisters .arm64 < img.ints.length + fs.length) then
        { img with ints := img.ints ++
            List.replicate (numOfIntegerRegisters .arm64 - img.ints.length) 0 }
      else img
    match arm64Loop ⟨img1, 0, 0, false⟩ fs with
    | none => none
    | some st =>
      some (ka, if st.flushed then st.img else addInt .arm64 st.img (u64 st.val))
  else
    some (ka ++ [bufPtr], addInt .arm64 img bufPtr)

/-- C3, failing inputs.  The arm64 register path always runs its trailing
`if !flushed { addInt(val) }`: `struct{float32; float32}` — an HFA — gets
its two floats in float registers but *also* consumes one integer
register holding the never-used packing residue 0, and the 16-byte HVA
`struct{uint32 x 4}` emits only its first eightbyte (`1 + 2*2^32`) — the
second eightbyte is dropped because the flush happens at most once.  Both
contradict one-register-per-matching-class-chunk passing.  The
pass-by-reference path for large aggregates does behave as claimed:
address in exactly one integer slot and the buffer appended to
keepAlive. -/
theorem arm64_struct_register_bugs :
    addStructArm64 0 [⟨.f32, 0x3F800000⟩, ⟨.f32, 0x40000000⟩] [] CallImage.empty =
        some ([], ⟨[0], [0x3F800000, 0x40000000], []⟩) ∧
      addStructArm64 0 [⟨.u32, 1⟩, ⟨.u32, 2⟩, ⟨.u32, 3⟩, ⟨.u32, 4⟩] [] CallImage.empty =
        some ([], ⟨[1 + 2 * 2 ^ 32], [], []⟩) ∧
      addStructArm64 77 [⟨.u64, 1⟩, ⟨.u64, 2⟩, ⟨.u64, 3⟩, ⟨.u64, 4⟩] [9] CallImage.empty =
        some ([9, 77], ⟨[77], [], []⟩) := by
  refine ⟨by decide, by decide, by decide⟩

theorem fieldKind_size_cases (k : FieldKind) :
    k.size = 1 ∨ k.size = 2 ∨ k.size = 4 ∨ k.size = 8 := by
  cases k <;> simp [FieldKind.size]

/-- C9 counterexample.  On the mixed-width flat struct
`{uint32 = 0; uint16 = 0; uint32 = 1}` the two amd64 classifiers diverge:
func.go's pre-check (`shift + size*8 > 64`) flushes before the third
field (emitting eightbyte 0 and then dropping the residue), while
struct_amd64.go's post-check (`shift >= 64`) lets the third field
straddle the boundary, emitting `1 <<< 48`. -/
theorem amd64_classifiers_divergence_counterexample :
    addStructAmd64Fn [⟨.u32, 0⟩, ⟨.u16, 0⟩, ⟨.u32, 1⟩] CallImage.empty =
        ⟨[0], [], []⟩ ∧
      addStructAmd64St [⟨.u32, 0⟩, ⟨.u16, 0⟩, ⟨.u32, 1⟩] CallImage.empty =
        ⟨[1 <<< 48], [], []⟩ ∧
      addStructAmd64Fn [⟨.u32, 0⟩, ⟨.u16, 0⟩, ⟨.u32, 1⟩] CallImage.empty ≠
        addStructAmd64St [⟨.u32, 0⟩, ⟨.u16, 0⟩, ⟨.u32, 1⟩] CallImage.empty := by
  refine ⟨by decide, by decide, by decide⟩

theorem shift_step_le (w shift : Nat) (hw : w = 1 ∨ w = 2 ∨ w = 4 ∨ w = 8)
    (hsh : shift % (8 * w) = 0) (hlt : shift < 64) : shift + 8 * w ≤ 64 := by
  rcases hw with rfl | rfl | rfl | rfl <;> omega

theorem amd64Loops_agree (sz w : Nat) (fs : List Field) (st : ClsState)
    (hw : ∀ f ∈ fs, f.kind.size = w)
    (hsh : st.shift % (8 * w) = 0) (hle : st.shift ≤ 64) :
    amd64LoopFn sz st fs = amd64LoopSt sz st fs := by
  induction fs generalizing st with
  | nil => rfl
  | cons f rest ih =>
    have hfw : f.kind.size = w := hw f (by simp)
    have hwc : w = 1 ∨ w = 2 ∨ w = 4 ∨ w = 8 := hfw ▸ fieldKind_size_cases f.kind
    have hwrest : ∀ g ∈ rest, g.kind.size = w := fun g hg => hw g (by simp [hg])
    have hcond : (if 64 < st.shift + 8 * f.kind.size then flushEightbyte st else st)
        = (if 64 ≤ st.shift then flushEightbyte st else st) := by
      rcases Nat.lt_or_ge st.shift 64 with hlt | hge
      · rw [if_neg (by rw [hfw]; have := shift_step_le w st.shift hwc hsh hlt; omega),
          if_neg (by omega)]
      · rw [if_pos (by have := fieldKind_size_pos f.kind; omega), if_pos (by omega)]
    have h1 : (if 64 ≤ st.shift then flushEightbyte st else st).shift % (8 * w) = 0 ∧
        (if 64 ≤ st.shift then flushEightbyte st else st).shift + 8 * w ≤ 64 := by
      rcases Nat.lt_or_ge st.shift 64 with hlt | hge
      · rw [if_neg (by omega)]
        exact ⟨hsh, shift_step_le w st.shift hwc hsh hlt⟩
      · rw [if_pos (by omega)]
        refine ⟨by simp [flushEightbyte], ?_⟩
        simp only [flushEightbyte]
        rcases hwc with rfl | rfl | rfl | rfl <;> omega
    unfold amd64LoopFn amd64LoopSt
    rw [hcond]
    rcases f with ⟨k, v⟩
    have hfw2 : FieldKind.size k = w := hfw
    cases k
    case ptr => rfl
    case f64 =>
      have hww : w = 8 := by simpa [FieldKind.size] using hfw2.symm
      subst hww
      by_cases hsz : 16 < sz <;> simp only [amd64FieldAdd, hsz, if_pos, if_neg, if_true,
        if_false, not_false_iff, reduceIte]
      refine ih _ hwrest ?_ ?_ <;> (dsimp only; try omega)
    case u64 =>
      have hww : w = 8 := by simpa [FieldKind.size] using hfw2.symm
      subst hww
      simp only [amd64FieldAdd]
      refine ih _ hwrest ?_ ?_ <;> (dsimp only; try omega)
    case i64 =>
      have hww : w = 8 := by simpa [FieldKind.size] using hfw2.symm
      subst hww
      simp only [amd64FieldAdd]
      refine ih _ hwrest ?_ ?_ <;> (dsimp only; try omega)
    case u8 =>
      have hww : w = 1 := by simpa [FieldKind.size] using hfw2.symm
      subst hww
      simp only [amd64FieldAdd]
      refine ih _ hwrest ?_ ?_ <;> (dsimp only; try omega)
    case i8 =>
      have hww : w = 1 := by simpa [FieldKind.size] using hfw2.symm
      subst hww
      simp only [amd64FieldAdd]
      refine ih _ hwrest ?_ ?_ <;> (dsimp only; try omega)
    case u16 =>
      have hww : w = 2 := by simpa [FieldKind.size] using hfw2.symm
      subst hww
      simp only [amd64FieldAdd]
      refine ih _ hwrest ?_ ?_ <;> (dsimp only; try omega)
    case i16 =>
      have hww : w = 2 := by simpa [FieldKind.size] using hfw2.symm
      subst hww
      simp only [amd64FieldAdd]
      refine ih _ hwrest ?_ ?_ <;> (dsimp only; try omega)
    case u32 =>
      have hww : w = 4 := by simpa [FieldKind.size] using hfw2.symm
      subst hww
      simp only [amd64FieldAdd]
      refine ih _ hwrest ?_ ?_ <;> (dsimp only; try omega)
    case i32 =>
      have hww : w = 4 := by simpa [FieldKind.size] using hfw2.symm
      subst hww
      simp only [amd64FieldAdd]
      refine ih _ hwrest ?_ ?_ <;> (dsimp only; try omega)
    case f32 =>
      have hww : w = 4 := by simpa [FieldKind.size] using hfw2.symm
      subst hww
      simp only [amd64FieldAdd]
      refine ih _ hwrest ?_ ?_ <;> (dsimp only; try omega)

/-- C9 (amended).  The standalone struct_amd64.go classifier and the
amd64 branch of func.go's `addStruct` agree — same emitted
`addInt`/`addFloat`/`addStack` values, same final counters — on every
flat struct whose fields all share one width, because then func.go's
pre-check flush (`shift + size*8 > 64`) and struct_amd64.go's post-check
flush (`shift >= 64`) fire at exactly the same points; on mixed-width
structs whose fields straddle an eightbyte boundary the two flush
disciplines differ and the classifiers can emit different values. -/
theorem amd64_classifiers_agree_uniform_width (w : Nat) (fs : List Field)
    (img : CallImage) (hw : (fs.all fun f => f.kind.size == w) = true) :
    addStructAmd64Fn fs img = addStructAmd64St fs img := by
  have hw2 : ∀ f ∈ fs, f.kind.size = w := by
    intro f hf
    have := List.all_eq_true.mp hw f hf
    exact beq_iff_eq.mp this
  unfold addStructAmd64Fn addStructAmd64St
  rw [amd64Loops_agree (structSize fs) w fs _ hw2 (by simp) (by dsimp only; omega)]

/-- Witness for C9's amended theorem on a uniform-width struct. -/
theorem amd64_classifiers_agree_uniform_width_witness :
    addStructAmd64Fn [⟨.u32, 5⟩, ⟨.u32, 6⟩, ⟨.u32, 7⟩] CallImage.empty =
      addStructAmd64St [⟨.u32, 5⟩, ⟨.u32, 6⟩, ⟨.u32, 7⟩] CallImage.empty :=
  amd64_classifiers_agree_uniform_width 4 [⟨.u32, 5⟩, ⟨.u32, 6⟩, ⟨.u32, 7⟩]
    CallImage.empty (by decide)

end Purego
